import Mathlib

/-!
Verification of `dsa::spinlock` (spinlock.hpp), a busy-wait mutual-exclusion
primitive built on `std::atomic_flag`.

The shallow embedding models:

* the single atomic state cell `lock_flag` as a `Bool` inside `spinlock`
  (`false` = clear/free, `true` = set/held);
* the atomic primitives `test_and_set` and `clear` as pure state
  transformers, each tagged with the `std::memory_order` constant the source
  passes to it (recorded in an event trace);
* `try_lock` and `unlock` directly from their one-line bodies;
* `lock` as a fuel-bounded execution over an environment `Env` that supplies,
  for each of the calling thread's atomic test-and-set attempts, the value the
  shared flag held at that instant (interference from other threads), and for
  each `steady_clock::now()` call, the clock reading in `duration_type` ticks.
  The execution records the trace of atomic operations, clock reads and
  `std::this_thread::yield` calls;
* multi-threaded use of the lock as a transition system over a shared flag
  plus the set of threads currently inside the critical section, with steps
  built from the same `test_and_set` / `unlock` transformers;
* template instantiation of `spinlock<WaitDurationType, wait_count>` with its
  `static_assert (wait_count > 0, ...)` as a compile-time check returning a
  `CompileResult`.
-/

namespace dsa

/-- The `std::memory_order` constants used by the source. -/
inductive MemoryOrder where
  | relaxed
  | acquire
  | release
  | acq_rel
  | seq_cst
deriving DecidableEq, Repr

/-- The spinlock state: the single `std::atomic_flag lock_flag` cell.
`false` models the clear (free) state, `true` the set (held) state. -/
structure spinlock where
  lock_flag : Bool
deriving DecidableEq, Repr

/-- Construction: `ATOMIC_FLAG_INIT` guarantees initialization of
`lock_flag` to `false` ("guaranteed initialization to false"). -/
def spinlock.init : spinlock := ⟨false⟩

/-- `atomic_flag::test_and_set`: atomically sets the flag and returns the
value it held immediately before. -/
def test_and_set (s : spinlock) : Bool × spinlock := (s.lock_flag, ⟨true⟩)

/-- `atomic_flag::clear`: atomically clears the flag. -/
def clear (s : spinlock) : spinlock := ⟨false⟩

/-- Source: `bool try_lock (void) & noexcept { return !lock_flag.test_and_set (std::memory_order_acquire); }` -/
def try_lock (s : spinlock) : Bool × spinlock :=
  (!(test_and_set s).1, (test_and_set s).2)

/-- Source: `void unlock (void) & noexcept { lock_flag.clear (std::memory_order_release); }` -/
def unlock (s : spinlock) : spinlock := clear s

/-- Observable events of a thread executing the lock's operations:
atomic test-and-set (with its memory order and the flag value read),
atomic clear (with its memory order), `steady_clock::now()` reads,
and `std::this_thread::yield()` calls. -/
inductive Event where
  | tas (order : MemoryOrder) (prev : Bool)
  | clearEv (order : MemoryOrder)
  | clockRead (t : Int)
  | yieldEv
deriving DecidableEq, Repr

/-- Instrumented `try_lock`: result, new flag state, and the events it
performs — exactly one acquire-ordered test-and-set. -/
def try_lock_tr (s : spinlock) : Bool × spinlock × List Event :=
  ((try_lock s).1, (try_lock s).2, [Event.tas MemoryOrder.acquire s.lock_flag])

/-- Instrumented `unlock`: new flag state and the events it performs —
exactly one release-ordered clear. -/
def unlock_tr (s : spinlock) : spinlock × List Event :=
  (unlock s, [Event.clearEv MemoryOrder.release])

end dsa

namespace dsa

/-! ### Claim theorems: `try_lock`, `unlock`, round trip -/

/-- C2: `try_lock` on a free lock returns `true` and leaves the lock held;
on a held lock it returns `false` and leaves the state unchanged; it
performs exactly one atomic operation and never yields (no waiting). -/
theorem try_lock_correct (s : spinlock) :
    (s.lock_flag = false → try_lock s = (true, ⟨true⟩)) ∧
    (s.lock_flag = true → try_lock s = (false, s)) ∧
    (try_lock_tr s).2.2 = [Event.tas MemoryOrder.acquire s.lock_flag] ∧
    Event.yieldEv ∉ (try_lock_tr s).2.2 := by
  obtain ⟨b⟩ := s
  cases b <;> simp [try_lock, test_and_set, try_lock_tr]

/-- Witness for C2 at both concrete states. -/
theorem try_lock_correct_holds :
    try_lock ⟨false⟩ = (true, ⟨true⟩) ∧ try_lock ⟨true⟩ = (false, ⟨true⟩) :=
  ⟨(try_lock_correct ⟨false⟩).1 rfl, (try_lock_correct ⟨true⟩).2.1 rfl⟩

/-- C5: `unlock` is a single atomic release-ordered clear setting the cell to
free, in every state; neither `unlock` nor `try_lock` ever yields or performs
more than its one atomic operation (no blocking, waiting or suspension). -/
theorem unlock_behavior (s : spinlock) :
    unlock s = ⟨false⟩ ∧
    unlock_tr s = (⟨false⟩, [Event.clearEv MemoryOrder.release]) ∧
    Event.yieldEv ∉ (unlock_tr s).2 ∧
    Event.yieldEv ∉ (try_lock_tr s).2.2 := by
  simp [unlock, clear, unlock_tr, try_lock_tr, try_lock, test_and_set]

/-- C6: construction initializes the lock free, and the single-thread
round trip `try_lock`, `try_lock`, `unlock`, `try_lock` returns
`true`, `false`, `true`. -/
theorem round_trip :
    spinlock.init.lock_flag = false ∧
    (try_lock spinlock.init).1 = true ∧
    (try_lock (try_lock spinlock.init).2).1 = false ∧
    (try_lock (unlock (try_lock (try_lock spinlock.init).2).2)).1 = true := by
  decide

/-- C9: `unlock` is total on the state and idempotent: it yields the free
state from every state, so unlocking an already-free lock leaves it free and
`unlock ∘ unlock = unlock`. -/
theorem unlock_total_idempotent (s : spinlock) :
    (unlock s).lock_flag = false ∧
    unlock spinlock.init = spinlock.init ∧
    unlock (unlock s) = unlock s := by
  simp [unlock, clear, spinlock.init]

/-! ### Multi-threaded protocol model

`N` threads share one spinlock. Each atomic operation of a thread is one
interleaved step. A thread enters the critical section exactly by a
successful `test_and_set` (the single claim attempt of `try_lock`, or the
last claim attempt of `lock`) and leaves it by calling `unlock` while
inside — the caller discipline the spec demands (unlocking without holding
is undefined behavior and excluded). -/

/-- Global state of `N` threads sharing one spinlock: the shared flag cell
and the set of threads currently inside the critical section. -/
structure SysState (N : Nat) where
  flag : Bool
  inside : Finset (Fin N)

/-- Initial global state: a freshly constructed lock, nobody inside. -/
def SysState.start (N : Nat) : SysState N := ⟨spinlock.init.lock_flag, ∅⟩

/-- One interleaved atomic step of a well-disciplined thread `t`:
a claim attempt (`test_and_set`) that succeeds (read `false`) and enters,
a claim attempt that fails (read `true`) and changes nothing logical,
or an `unlock` by a thread currently inside. -/
inductive Step (N : Nat) : SysState N → SysState N → Prop where
  | claim (t : Fin N) (s : SysState N) (h : (test_and_set ⟨s.flag⟩).1 = false) :
      Step N s ⟨(test_and_set ⟨s.flag⟩).2.lock_flag, insert t s.inside⟩
  | claimFail (t : Fin N) (s : SysState N) (h : (test_and_set ⟨s.flag⟩).1 = true) :
      Step N s ⟨(test_and_set ⟨s.flag⟩).2.lock_flag, s.inside⟩
  | release (t : Fin N) (s : SysState N) (h : t ∈ s.inside) :
      Step N s ⟨(unlock ⟨s.flag⟩).lock_flag, s.inside.erase t⟩

/-- A global state reachable by interleaved steps from the initial state. -/
def Reachable (N : Nat) (s : SysState N) : Prop :=
  Relation.ReflTransGen (Step N) (SysState.start N) s

/-- The inductive invariant: a clear flag means nobody is inside, and at
most one thread is ever inside. -/
def MutexInv (N : Nat) (s : SysState N) : Prop :=
  (s.flag = false → s.inside = ∅) ∧ s.inside.card ≤ 1

theorem mutexInv_start (N : Nat) : MutexInv N (SysState.start N) := by
  constructor
  · intro _; rfl
  · simp [SysState.start]

theorem mutexInv_step {N : Nat} {s s' : SysState N} (hs : MutexInv N s)
    (h : Step N s s') : MutexInv N s' := by
  obtain ⟨hfree, hcard⟩ := hs
  cases h with
  | claim t s h =>
      have hflag : s.flag = false := by
        simpa [test_and_set] using h
      have hins : s.inside = ∅ := hfree hflag
      constructor
      · intro hcontra
        simp [test_and_set] at hcontra
      · simp [hins]
  | claimFail t s h =>
      constructor
      · intro hcontra
        simp [test_and_set] at hcontra
      · exact hcard
  | release t s h =>
      constructor
      · intro _
        have hsingle : s.inside = {t} := by
          apply Finset.eq_singleton_iff_unique_mem.mpr
          exact ⟨h, fun y hy => Finset.card_le_one.mp hcard y hy t h⟩
        simp [hsingle]
      · calc (s.inside.erase t).card ≤ s.inside.card := Finset.card_erase_le
          _ ≤ 1 := hcard

/-- C1: mutual exclusion — in every global state reachable by interleaved
claim/release steps of `N` threads on one spinlock, at most one thread is
inside the critical section. -/
theorem mutual_exclusion (N : Nat) (s : SysState N) (h : Reachable N s) :
    s.inside.card ≤ 1 := by
  have hinv : MutexInv N s := by
    induction h with
    | refl => exact mutexInv_start N
    | tail _ hstep ih => exact mutexInv_step ih hstep
  exact hinv.2

/-- Witness for C1: the state reached by thread 0 of 2 successfully claiming
the fresh lock is reachable, and at most one thread is inside there. -/
theorem mutual_exclusion_after_claim :
    (SysState.mk true (insert (0 : Fin 2) ∅)).inside.card ≤ 1 :=
  mutual_exclusion 2 _
    (Relation.ReflTransGen.single (Step.claim 0 (SysState.start 2) rfl))

/-! ### Execution model of `lock`

`void lock (duration_type wait_time = default_wait_time)` runs an outer loop
(one iteration per spin phase): read `start = steady_clock::now()`, then an
inner loop of `test_and_set` attempts; a successful attempt returns from
`lock`; a failed attempt reads `now`, computes
`elapsed = duration_cast<duration_type>(now - start)` and, when
`elapsed >= wait_time`, jumps to a single `std::this_thread::yield()` after
which the outer loop starts a fresh phase.

Clock readings and durations are modelled as `Int` tick counts in
`duration_type` resolution (`steady_clock`'s reading already cast to
`duration_type`, so `duration_cast` on `now - start` is the identity).
The environment supplies the flag value each claim attempt observes
(indexed by the running count `ti` of our attempts — contention by other
threads) and each clock reading (indexed by the running count `ci` of our
`now()` calls). Fuel bounds make the potentially unbounded busy-wait loops
total; `none` means the fuel ran out, i.e. that execution is still spinning. -/

/-- Environment of one `lock` call: `tasPrev n` is the shared-flag value the
calling thread's `n`-th `test_and_set` observes (other threads may have set
or cleared the flag in between), `clock n` is the `n`-th
`steady_clock::now()` reading in `duration_type` ticks. -/
structure Env where
  tasPrev : Nat → Bool
  clock : Nat → Int

/-- Result of one spin phase (one inner `while` loop of `lock`):
whether it ended by acquiring the lock (`return`) or by `goto yield`,
the flag cell as left by the thread's last atomic operation, the updated
attempt and clock counters, and the events performed. -/
structure PhaseResult where
  acquired : Bool
  state : spinlock
  ti : Nat
  ci : Nat
  events : List Event
deriving DecidableEq, Repr

/-- The inner `while (lock_flag.test_and_set (std::memory_order_acquire))`
loop of `lock`, with phase-start reading `start` already taken. -/
def spinPhase (env : Env) (wait_time start : Int) :
    Nat → Nat → Nat → Option PhaseResult
  | _, _, 0 => none
  | ti, ci, fuel+1 =>
    let prev := env.tasPrev ti
    if (test_and_set ⟨prev⟩).1 = false then
      some ⟨true, (test_and_set ⟨prev⟩).2, ti+1, ci,
        [Event.tas MemoryOrder.acquire prev]⟩
    else
      let now := env.clock ci
      let elapsed := now - start
      if wait_time ≤ elapsed then
        some ⟨false, (test_and_set ⟨prev⟩).2, ti+1, ci+1,
          [Event.tas MemoryOrder.acquire prev, Event.clockRead now]⟩
      else
        match spinPhase env wait_time start (ti+1) (ci+1) fuel with
        | none => none
        | some r => some ⟨r.acquired, r.state, r.ti, r.ci,
            Event.tas MemoryOrder.acquire prev :: Event.clockRead now :: r.events⟩

/-- Result of a completed `lock` call: the flag cell as left by the calling
thread's last atomic operation, the final counters and the event trace. -/
structure LockResult where
  state : spinlock
  ti : Nat
  ci : Nat
  events : List Event
deriving DecidableEq, Repr

/-- The outer `while (true)` loop of `lock`: each iteration reads a fresh
`start`, runs one spin phase, and either returns (phase acquired the lock)
or yields once and repeats. `spinFuel` bounds each inner loop, the last
argument bounds the number of phases. -/
def lockLoop (env : Env) (wait_time : Int) (spinFuel : Nat) :
    Nat → Nat → Nat → Option LockResult
  | _, _, 0 => none
  | ti, ci, pf+1 =>
    let start := env.clock ci
    match spinPhase env wait_time start ti (ci+1) spinFuel with
    | none => none
    | some r =>
      if r.acquired then
        some ⟨r.state, r.ti, r.ci, Event.clockRead start :: r.events⟩
      else
        match lockLoop env wait_time spinFuel r.ti r.ci pf with
        | none => none
        | some r2 => some ⟨r2.state, r2.ti, r2.ci,
            Event.clockRead start :: r.events ++ Event.yieldEv :: r2.events⟩

/-- A full `lock (wait_time)` call starting from the first attempt. -/
def lock (env : Env) (wait_time : Int) (spinFuel phaseFuel : Nat) :
    Option LockResult :=
  lockLoop env wait_time spinFuel 0 0 phaseFuel

/-! ### Claim theorems: `lock` -/

theorem spinPhase_some {env : Env} {wait_time start : Int} :
    ∀ {fuel ti ci} {r : PhaseResult},
      spinPhase env wait_time start ti ci fuel = some r →
      r.state.lock_flag = true ∧
      (r.acquired = true →
        ∃ es, r.events = es ++ [Event.tas MemoryOrder.acquire false]) := by
  intro fuel
  induction fuel with
  | zero => intro ti ci r h; simp [spinPhase] at h
  | succ f ih =>
    intro ti ci r h
    rw [spinPhase] at h
    dsimp only at h
    by_cases hp : env.tasPrev ti = false
    · simp only [test_and_set, hp, if_pos rfl] at h
      injection h with h
      subst h
      exact ⟨rfl, fun _ => ⟨[], by simp⟩⟩
    · simp only [test_and_set, if_neg hp] at h
      by_cases hw : wait_time ≤ env.clock ci - start
      · rw [if_pos hw] at h
        injection h with h
        subst h
        exact ⟨rfl, fun hfalse => by simp at hfalse⟩
      · rw [if_neg hw] at h
        cases heq : spinPhase env wait_time start (ti+1) (ci+1) f with
        | none => rw [heq] at h; simp at h
        | some r2 =>
          rw [heq] at h
          dsimp only at h
          injection h with h
          subst h
          obtain ⟨hstate, hacq⟩ := ih heq
          refine ⟨hstate, fun ha => ?_⟩
          obtain ⟨es, hes⟩ := hacq ha
          exact ⟨Event.tas MemoryOrder.acquire (env.tasPrev ti) ::
            Event.clockRead (env.clock ci) :: es, by simp [hes]⟩

theorem lockLoop_some {env : Env} {wait_time : Int} {spinFuel : Nat} :
    ∀ {phaseFuel ti ci} {r : LockResult},
      lockLoop env wait_time spinFuel ti ci phaseFuel = some r →
      r.state.lock_flag = true ∧
      ∃ es, r.events = es ++ [Event.tas MemoryOrder.acquire false] := by
  intro pf
  induction pf with
  | zero => intro ti ci r h; simp [lockLoop] at h
  | succ pf ih =>
    intro ti ci r h
    rw [lockLoop] at h
    cases heq : spinPhase env wait_time (env.clock ci) ti (ci+1) spinFuel with
    | none => rw [heq] at h; simp at h
    | some p =>
      rw [heq] at h
      dsimp only at h
      obtain ⟨hstate, hacq⟩ := spinPhase_some heq
      by_cases ha : p.acquired = true
      · rw [if_pos ha] at h
        injection h with h
        subst h
        obtain ⟨es, hes⟩ := hacq ha
        exact ⟨hstate, ⟨Event.clockRead (env.clock ci) :: es, by simp [hes]⟩⟩
      · rw [if_neg ha] at h
        cases heq2 : lockLoop env wait_time spinFuel p.ti p.ci pf with
        | none => rw [heq2] at h; simp at h
        | some r2 =>
          rw [heq2] at h
          dsimp only at h
          injection h with h
          subst h
          obtain ⟨hstate2, es2, hes2⟩ := ih heq2
          refine ⟨hstate2,
            ⟨Event.clockRead (env.clock ci) :: p.events ++ Event.yieldEv :: es2, ?_⟩⟩
          simp [hes2]

/-- C3: whenever `lock` returns, the flag cell is set (the lock is held by
the caller), and the return happened through a successful acquire-ordered
claim — the last operation of every completed `lock` call is a
`test_and_set` that read `false`. There is no other return path, for any
`wait_time` whatsoever: the wait time never acts as a give-up timeout. -/
theorem lock_postcondition (env : Env) (wait_time : Int)
    (spinFuel phaseFuel : Nat) (r : LockResult)
    (h : lock env wait_time spinFuel phaseFuel = some r) :
    r.state.lock_flag = true ∧
    r.events.getLast? = some (Event.tas MemoryOrder.acquire false) := by
  obtain ⟨hstate, es, hes⟩ := lockLoop_some h
  exact ⟨hstate, by simp [hes]⟩

/-- Witness for C3: an uncontended `lock` call completes and the theorem's
conclusions hold for its concrete result. -/
theorem lock_postcondition_holds :
    (LockResult.mk ⟨true⟩ 1 1
      [Event.clockRead 0, Event.tas MemoryOrder.acquire false]).state.lock_flag
        = true ∧
    (LockResult.mk ⟨true⟩ 1 1
      [Event.clockRead 0, Event.tas MemoryOrder.acquire false]).events.getLast?
        = some (Event.tas MemoryOrder.acquire false) :=
  lock_postcondition ⟨fun _ => false, fun _ => 0⟩ 0 1 1 _ rfl

/-- Parsing state of the spin-then-yield cadence checker: a new spin phase
is about to open (expecting its start-of-phase clock reading); the thread is
spinning in a phase that started at clock reading `start` (expecting a claim
attempt); a claim attempt just failed in the phase started at `start`
(expecting the elapsed-time clock reading); or the elapsed time within the
phase reached `wait_time` (expecting the single yield). -/
inductive CadState where
  | newPhase
  | spinning (start : Int)
  | afterFail (start : Int)
  | mustYield
deriving DecidableEq, Repr

/-- Checker for the spin-then-yield cadence, written from the spec's words:
during a `lock` call the thread repeatedly attempts the atomic claim in a
tight loop while measuring elapsed monotonic-clock time since the start of
the current spin phase; once the elapsed time within the current phase
reaches `wait_time`, it yields exactly once, then starts a new spin phase
with the elapsed-time measurement reset, repeating until a claim succeeds,
which ends the trace. -/
def cadenceAux (wait_time : Int) : CadState → List Event → Bool
  | CadState.spinning _, [Event.tas MemoryOrder.acquire false] => true
  | CadState.newPhase, Event.clockRead start :: rest =>
      cadenceAux wait_time (CadState.spinning start) rest
  | CadState.spinning start, Event.tas MemoryOrder.acquire true :: rest =>
      cadenceAux wait_time (CadState.afterFail start) rest
  | CadState.afterFail start, Event.clockRead now :: rest =>
      if wait_time ≤ now - start then
        cadenceAux wait_time CadState.mustYield rest
      else
        cadenceAux wait_time (CadState.spinning start) rest
  | CadState.mustYield, Event.yieldEv :: rest =>
      cadenceAux wait_time CadState.newPhase rest
  | _, _ => false

/-- A trace follows the spec's spin-then-yield cadence for `wait_time`. -/
def cadence (wait_time : Int) (es : List Event) : Bool :=
  cadenceAux wait_time CadState.newPhase es

theorem spinPhase_cadence_acquired {env : Env} {wait_time start : Int} :
    ∀ {fuel ti ci} {r : PhaseResult},
      spinPhase env wait_time start ti ci fuel = some r →
      r.acquired = true →
      cadenceAux wait_time (CadState.spinning start) r.events = true := by
  intro fuel
  induction fuel with
  | zero => intro ti ci r h _; simp [spinPhase] at h
  | succ f ih =>
    intro ti ci r h ha
    rw [spinPhase] at h
    dsimp only at h
    by_cases hp : env.tasPrev ti = false
    · simp only [test_and_set, hp, if_pos rfl] at h
      injection h with h
      subst h
      simp [cadenceAux]
    · simp only [test_and_set, if_neg hp] at h
      rw [Bool.not_eq_false] at hp
      by_cases hw : wait_time ≤ env.clock ci - start
      · rw [if_pos hw] at h
        injection h with h
        subst h
        simp at ha
      · rw [if_neg hw] at h
        cases heq : spinPhase env wait_time start (ti+1) (ci+1) f with
        | none => rw [heq] at h; simp at h
        | some r2 =>
          rw [heq] at h
          dsimp only at h
          injection h with h
          subst h
          rw [hp]
          have hrec := ih heq ha
          simpa [cadenceAux, hw] using hrec

theorem spinPhase_cadence_yield {env : Env} {wait_time start : Int} :
    ∀ {fuel ti ci} {r : PhaseResult},
      spinPhase env wait_time start ti ci fuel = some r →
      r.acquired = false →
      ∀ rest, cadenceAux wait_time CadState.newPhase rest = true →
        cadenceAux wait_time (CadState.spinning start)
          (r.events ++ Event.yieldEv :: rest) = true := by
  intro fuel
  induction fuel with
  | zero => intro ti ci r h _; simp [spinPhase] at h
  | succ f ih =>
    intro ti ci r h ha rest hrest
    rw [spinPhase] at h
    dsimp only at h
    by_cases hp : env.tasPrev ti = false
    · simp only [test_and_set, hp, if_pos rfl] at h
      injection h with h
      subst h
      simp at ha
    · simp only [test_and_set, if_neg hp] at h
      rw [Bool.not_eq_false] at hp
      by_cases hw : wait_time ≤ env.clock ci - start
      · rw [if_pos hw] at h
        injection h with h
        subst h
        rw [hp]
        simpa [cadenceAux, hw] using hrest
      · rw [if_neg hw] at h
        cases heq : spinPhase env wait_time start (ti+1) (ci+1) f with
        | none => rw [heq] at h; simp at h
        | some r2 =>
          rw [heq] at h
          dsimp only at h
          injection h with h
          subst h
          rw [hp]
          have hrec := ih heq ha rest hrest
          simpa [cadenceAux, hw] using hrec

theorem lockLoop_cadence {env : Env} {wait_time : Int} {spinFuel : Nat} :
    ∀ {phaseFuel ti ci} {r : LockResult},
      lockLoop env wait_time spinFuel ti ci phaseFuel = some r →
      cadence wait_time r.events = true := by
  intro pf
  induction pf with
  | zero => intro ti ci r h; simp [lockLoop] at h
  | succ pf ih =>
    intro ti ci r h
    rw [lockLoop] at h
    cases heq : spinPhase env wait_time (env.clock ci) ti (ci+1) spinFuel with
    | none => rw [heq] at h; simp at h
    | some p =>
      rw [heq] at h
      dsimp only at h
      by_cases ha : p.acquired = true
      · rw [if_pos ha] at h
        injection h with h
        subst h
        have := spinPhase_cadence_acquired heq ha
        simpa [cadence, cadenceAux] using this
      · rw [if_neg ha] at h
        cases heq2 : lockLoop env wait_time spinFuel p.ti p.ci pf with
        | none => rw [heq2] at h; simp at h
        | some r2 =>
          rw [heq2] at h
          dsimp only at h
          injection h with h
          subst h
          rw [Bool.not_eq_true] at ha
          have := spinPhase_cadence_yield heq ha r2.events (ih heq2)
          simpa [cadence, cadenceAux] using this

/-- C4: the trace of every completed `lock` call follows the spec's
spin-then-yield cadence — tight claim-attempt loop measuring elapsed
monotonic time within the current phase, exactly one yield once the phase's
elapsed time reaches `wait_time`, then a fresh phase with the measurement
reset, repeated until a claim succeeds. -/
theorem lock_cadence (env : Env) (wait_time : Int) (spinFuel phaseFuel : Nat)
    (r : LockResult) (h : lock env wait_time spinFuel phaseFuel = some r) :
    cadence wait_time r.events = true :=
  lockLoop_cadence h

/-- Witness for C4: a contended `lock` call that spins, yields once and then
acquires in its second phase produces a trace accepted by the cadence
checker. -/
theorem lock_cadence_holds :
    cadence 0
      [Event.clockRead 0, Event.tas MemoryOrder.acquire true, Event.clockRead 1,
       Event.yieldEv, Event.clockRead 2, Event.tas MemoryOrder.acquire false]
      = true :=
  lock_cadence ⟨fun n => decide (n = 0), fun n => (n : Int)⟩ 0 1 2 _ rfl

/-! ### Claim theorems: memory ordering -/

/-- Every `test_and_set` event in a trace carries acquire ordering. -/
def allTasAcquire : List Event → Bool
  | [] => true
  | Event.tas MemoryOrder.acquire _ :: rest => allTasAcquire rest
  | Event.tas _ _ :: _ => false
  | _ :: rest => allTasAcquire rest

/-- The event trace of a (possibly unfinished) `lock` execution. -/
def eventsOf (o : Option LockResult) : List Event :=
  (o.map LockResult.events).getD []

theorem allTasAcquire_append {l1 l2 : List Event}
    (h1 : allTasAcquire l1 = true) (h2 : allTasAcquire l2 = true) :
    allTasAcquire (l1 ++ l2) = true := by
  induction l1 with
  | nil => simpa using h2
  | cons e l1 ih =>
    cases e with
    | tas o prev =>
      cases o <;> simp_all [allTasAcquire]
    | clearEv o => simp_all [allTasAcquire]
    | clockRead t => simp_all [allTasAcquire]
    | yieldEv => simp_all [allTasAcquire]

theorem spinPhase_allTasAcquire {env : Env} {wait_time start : Int} :
    ∀ {fuel ti ci} {r : PhaseResult},
      spinPhase env wait_time start ti ci fuel = some r →
      allTasAcquire r.events = true := by
  intro fuel
  induction fuel with
  | zero => intro ti ci r h; simp [spinPhase] at h
  | succ f ih =>
    intro ti ci r h
    rw [spinPhase] at h
    dsimp only at h
    by_cases hp : env.tasPrev ti = false
    · simp only [test_and_set, hp, if_pos rfl] at h
      injection h with h
      subst h
      simp [allTasAcquire]
    · simp only [test_and_set, if_neg hp] at h
      by_cases hw : wait_time ≤ env.clock ci - start
      · rw [if_pos hw] at h
        injection h with h
        subst h
        simp [allTasAcquire]
      · rw [if_neg hw] at h
        cases heq : spinPhase env wait_time start (ti+1) (ci+1) f with
        | none => rw [heq] at h; simp at h
        | some r2 =>
          rw [heq] at h
          dsimp only at h
          injection h with h
          subst h
          simpa [allTasAcquire] using ih heq

theorem lockLoop_allTasAcquire {env : Env} {wait_time : Int} {spinFuel : Nat} :
    ∀ {phaseFuel ti ci},
      allTasAcquire (eventsOf (lockLoop env wait_time spinFuel ti ci phaseFuel))
        = true := by
  intro pf
  induction pf with
  | zero => intro ti ci; simp [lockLoop, eventsOf, allTasAcquire]
  | succ pf ih =>
    intro ti ci
    rw [lockLoop]
    cases heq : spinPhase env wait_time (env.clock ci) ti (ci+1) spinFuel with
    | none => simp [eventsOf, allTasAcquire]
    | some p =>
      dsimp only
      have hp := spinPhase_allTasAcquire heq
      by_cases ha : p.acquired = true
      · rw [if_pos ha]
        simpa [eventsOf, allTasAcquire] using hp
      · rw [if_neg ha]
        cases heq2 : lockLoop env wait_time spinFuel p.ti p.ci pf with
        | none => simp [eventsOf, allTasAcquire]
        | some r2 =>
          have h2 : allTasAcquire r2.events = true := by
            have := @ih p.ti p.ci
            rw [heq2] at this
            simpa [eventsOf] using this
          dsimp only
          simp only [eventsOf, Option.map_some, Option.getD_some]
          have h3 : allTasAcquire (Event.yieldEv :: r2.events) = true := by
            simpa [allTasAcquire] using h2
          have happ :=
            @allTasAcquire_append p.events (Event.yieldEv :: r2.events) hp h3
          simpa [allTasAcquire] using happ

/-- C7: every claim attempt uses acquire ordering and `unlock` uses release
ordering — every `test_and_set` in any `lock` execution's trace, and the one
`test_and_set` of `try_lock`, carry `std::memory_order_acquire`; the one
`clear` of `unlock` carries `std::memory_order_release`. (The happens-before
visibility between successive holders is the C++ memory-model consequence of
exactly this acquire/release pairing.) -/
theorem memory_ordering_contract :
    (∀ (env : Env) (wait_time : Int) (spinFuel phaseFuel ti ci : Nat),
      allTasAcquire (eventsOf (lockLoop env wait_time spinFuel ti ci phaseFuel))
        = true) ∧
    (∀ s : spinlock,
      (try_lock_tr s).2.2 = [Event.tas MemoryOrder.acquire s.lock_flag]) ∧
    (∀ s : spinlock,
      (unlock_tr s).2 = [Event.clearEv MemoryOrder.release]) :=
  ⟨fun _ _ _ _ _ _ => lockLoop_allTasAcquire, fun _ => rfl, fun _ => rfl⟩

/-! ### Claim theorems: the runtime `wait_time` argument -/

/-- Every failed claim attempt in the trace is immediately followed by the
elapsed-time clock reading and a yield (the behavior of `lock` when
`wait_time ≤ 0`: every failed attempt ends its spin phase at once). -/
def failFollowedByYield : List Event → Bool
  | [] => true
  | Event.tas _ true :: Event.clockRead _ :: Event.yieldEv :: rest =>
      failFollowedByYield rest
  | Event.tas _ true :: _ => false
  | _ :: rest => failFollowedByYield rest

theorem spinPhase_nonpos_single (env : Env) (wait_time start : Int)
    (ti ci f : Nat) (hwt : wait_time ≤ 0) (hc : start ≤ env.clock ci) :
    spinPhase env wait_time start ti ci (f+1) =
      if env.tasPrev ti = true then
        some ⟨false, ⟨true⟩, ti+1, ci+1,
          [Event.tas MemoryOrder.acquire true, Event.clockRead (env.clock ci)]⟩
      else
        some ⟨true, ⟨true⟩, ti+1, ci, [Event.tas MemoryOrder.acquire false]⟩ := by
  rw [spinPhase]
  by_cases hp : env.tasPrev ti = false
  · simp [test_and_set, hp]
  · rw [Bool.not_eq_false] at hp
    have hw : wait_time ≤ env.clock ci - start := le_trans hwt (by omega)
    simp [test_and_set, hp, hw]

theorem lockLoop_nonpos_yields (env : Env) (wait_time : Int) (sf : Nat)
    (hwt : wait_time ≤ 0)
    (hmono : ∀ i j : Nat, i ≤ j → env.clock i ≤ env.clock j) :
    ∀ {pf ti ci} {r : LockResult},
      lockLoop env wait_time (sf+1) ti ci pf = some r →
      failFollowedByYield r.events = true := by
  intro pf
  induction pf with
  | zero => intro ti ci r h; simp [lockLoop] at h
  | succ pf ih =>
    intro ti ci r h
    rw [lockLoop] at h
    rw [spinPhase_nonpos_single env wait_time (env.clock ci) ti (ci+1) sf hwt
      (hmono ci (ci+1) (by omega))] at h
    by_cases hp : env.tasPrev ti = true
    · rw [if_pos hp] at h
      dsimp only at h
      cases heq2 : lockLoop env wait_time (sf+1) (ti+1) (ci+1+1) pf with
      | none => rw [heq2] at h; simp at h
      | some r2 =>
        rw [heq2] at h
        dsimp only at h
        injection h with h
        subst h
        simpa [failFollowedByYield] using ih heq2
    · rw [if_neg hp] at h
      dsimp only at h
      injection h with h
      subst h
      simp [failFollowedByYield]

/-- C10: the runtime `wait_time` override of `lock` is not validated and may
be zero or negative. For every `wait_time` whatsoever, a claim attempt is
made before any elapsed-time comparison, so a `lock` call finding the lock
free returns at once — its whole trace is the phase-start clock reading and
one successful claim, with no yield and no elapsed-time reading. And with
`wait_time ≤ 0` (and a monotone clock), every failed claim attempt is
immediately followed by the elapsed-time reading and a yield opening a new
spin phase. -/
theorem lock_wait_time_unvalidated :
    (∀ (env : Env) (wait_time : Int) (ti ci sf pf : Nat),
      env.tasPrev ti = false →
      lockLoop env wait_time (sf+1) ti ci (pf+1) =
        some ⟨⟨true⟩, ti+1, ci+1,
          [Event.clockRead (env.clock ci), Event.tas MemoryOrder.acquire false]⟩) ∧
    (∀ (env : Env) (wait_time : Int) (sf pf ti ci : Nat) (r : LockResult),
      wait_time ≤ 0 →
      (∀ i j : Nat, i ≤ j → env.clock i ≤ env.clock j) →
      lockLoop env wait_time (sf+1) ti ci pf = some r →
      failFollowedByYield r.events = true) := by
  constructor
  · intro env wait_time ti ci sf pf hfree
    rw [lockLoop, spinPhase]
    simp [test_and_set, hfree]
  · intro env wait_time sf pf ti ci r hwt hmono h
    exact lockLoop_nonpos_yields env wait_time sf hwt hmono h

/-- Witness for C10: a negative `wait_time` is accepted; an uncontended
call acquires at once with no yield, and a contended call with negative
`wait_time` yields right after its failed attempt. -/
theorem lock_wait_time_unvalidated_holds :
    lockLoop ⟨fun _ => false, fun _ => 0⟩ (-3) 1 0 0 1 =
      some ⟨⟨true⟩, 1, 1,
        [Event.clockRead 0, Event.tas MemoryOrder.acquire false]⟩ ∧
    failFollowedByYield
      [Event.clockRead 0, Event.tas MemoryOrder.acquire true, Event.clockRead 1,
       Event.yieldEv, Event.clockRead 2, Event.tas MemoryOrder.acquire false]
      = true :=
  ⟨lock_wait_time_unvalidated.1 ⟨fun _ => false, fun _ => 0⟩ (-3) 0 0 0 0 rfl,
   lock_wait_time_unvalidated.2 ⟨fun n => decide (n = 0), fun n => (n : Int)⟩
     (-1) 0 2 0 0
     (LockResult.mk ⟨true⟩ 2 3
       [Event.clockRead 0, Event.tas MemoryOrder.acquire true, Event.clockRead 1,
        Event.yieldEv, Event.clockRead 2, Event.tas MemoryOrder.acquire false])
     (by omega) (fun i j hij => Int.ofNat_le.mpr hij) (by rfl)⟩

/-! ### Claim theorems: compile-time rejection of bad defaults -/

/-- Outcome of instantiating the class template
`spinlock<WaitDurationType, wait_count>` at compile time. -/
inductive CompileResult where
  | ok
  | staticAssertFailure
deriving DecidableEq, Repr

/-- Template instantiation of `spinlock<WaitDurationType, wait_count>`.
The class body's `static_assert (wait_count > 0, ...)` is evaluated when the
template is instantiated, i.e. at compile time, so a non-positive
`wait_count` makes the program ill-formed rather than failing at run time.
`wait_count` has type `WaitDurationType::rep`, a signed arithmetic type,
modelled as `Int`. -/
def instantiate_spinlock (wait_count : Int) : CompileResult :=
  if 0 < wait_count then CompileResult.ok else CompileResult.staticAssertFailure

/-- C8: instantiating the spinlock type with any default `wait_count ≤ 0` is
rejected by the compile-time `static_assert`, and any `wait_count > 0` is
accepted. -/
theorem static_assert_wait_count (wait_count : Int) :
    (wait_count ≤ 0 →
      instantiate_spinlock wait_count = CompileResult.staticAssertFailure) ∧
    (0 < wait_count → instantiate_spinlock wait_count = CompileResult.ok) := by
  constructor
  · intro hle
    simp [instantiate_spinlock, not_lt.mpr hle]
  · intro hlt
    simp [instantiate_spinlock, hlt]

/-- Witness for C8: `wait_count = -1` and `wait_count = 0` are rejected,
`wait_count = 1000` is accepted. -/
theorem static_assert_wait_count_holds :
    instantiate_spinlock (-1) = CompileResult.staticAssertFailure ∧
    instantiate_spinlock 0 = CompileResult.staticAssertFailure ∧
    instantiate_spinlock 1000 = CompileResult.ok :=
  ⟨(static_assert_wait_count (-1)).1 (by omega),
   (static_assert_wait_count 0).1 (by omega),
   (static_assert_wait_count 1000).2 (by omega)⟩

end dsa
